import Mathlib

/-!
Verification of the chess-coach response-validation subsystem.

Shallow embedding of the validation core of the repository
(`Scripts/experiments/evaluator.py`, `Scripts/benchmark/bench_m4.py`,
`Scripts/experiments/bench_shallow_fix.py`,
`Scripts/experiments/bench_final_accuracy.py`).

Modelling conventions:
* Text is `List Char` (Python `str` restricted to the characters the
  grammars inspect; `str.strip`, `\s` and friends use the ASCII
  whitespace set, which is what every relevant input contains).
* The chess rules engine (`python-chess`) is an external collaborator:
  a decoded position is modelled directly as `Board := Square → Option Piece`
  and a fallible decode (`chess.Board(fen)` raising `ValueError`) as an
  `Option Board` argument (`none` = MalformedPosition).
* `chess.parse_square`/`PIECE_NAMES.get` never fail on the output of the
  extraction grammars, so extracted claims are typed `PieceKind × Square`.
* Python regexes are embedded as bespoke executable matchers that
  reproduce the backtracking behaviour of the concrete patterns used by
  the source (greedy `\s*`/`\s+` runs followed by a non-whitespace
  literal always consume a maximal whitespace run, so the matchers
  consume maximal runs directly).
* JSON numbers are modelled as integers; no claim involves floats.
-/

/-! ## Character utilities -/

/-- Left brace character, written via its code so that brace characters never
appear literally in the file. -/
def lbrace : Char := '\x7b'

/-- Right brace character. -/
def rbrace : Char := '\x7d'

/-- ASCII lowercasing, as Python `str.lower` acts on ASCII letters. -/
def lowerCh (c : Char) : Char :=
  if 'A' ≤ c ∧ c ≤ 'Z' then Char.ofNat (c.toNat + 32) else c

/-- Python `\s` / `str.strip` whitespace set (ASCII). -/
def isSpaceCh (c : Char) : Bool :=
  c = ' ' ∨ c = '\t' ∨ c = '\n' ∨ c = '\r' ∨ c = '\x0b' ∨ c = '\x0c'

/-- Python regex `\w` (ASCII): letters, digits, underscore. -/
def isWordCh (c : Char) : Bool :=
  ('a' ≤ c ∧ c ≤ 'z') ∨ ('A' ≤ c ∧ c ≤ 'Z') ∨ ('0' ≤ c ∧ c ≤ '9') ∨ c = '_'

/-- ASCII letter test, regex class `[a-zA-Z]`. -/
def isAlphaCh (c : Char) : Bool :=
  ('a' ≤ c ∧ c ≤ 'z') ∨ ('A' ≤ c ∧ c ≤ 'Z')

/-! ## List-of-char utilities (Python string operations) -/

/-- Python `str.lower` over a whole string. -/
def lowerStr (cs : List Char) : List Char := cs.map lowerCh

/-- Drop leading whitespace (`str.lstrip`). -/
def trimStart (cs : List Char) : List Char := cs.dropWhile isSpaceCh

/-- Drop trailing whitespace (`str.rstrip`). -/
def trimEnd (cs : List Char) : List Char := (cs.reverse.dropWhile isSpaceCh).reverse

/-- Python `str.strip()`. -/
def pstrip (cs : List Char) : List Char := trimEnd (trimStart cs)

/-- Python `str.split(sep)` for a single-character separator: always returns
at least one (possibly empty) fragment. -/
def splitOnChar (sep : Char) : List Char → List (List Char)
  | [] => [[]]
  | c :: rest =>
    let r := splitOnChar sep rest
    if c = sep then [] :: r
    else
      match r with
      | [] => [[c]]
      | h :: t => (c :: h) :: t

/-- Match a literal character list at the head; return the remainder. -/
def litAt (pat cs : List Char) : Option (List Char) :=
  if pat.isPrefixOf cs then some (cs.drop pat.length) else none

/-- Case-insensitive match of a (lowercase) literal word at the head. -/
def matchWordCI : List Char → List Char → Option (List Char)
  | [], cs => some cs
  | _ :: _, [] => none
  | w :: ws, c :: cs => if lowerCh c = w then matchWordCI ws cs else none

/-- Length and remainder after a maximal whitespace run. -/
def spanWs : List Char → Nat × List Char
  | [] => (0, [])
  | c :: rest =>
    if isSpaceCh c then
      let (n, r) := spanWs rest
      (n + 1, r)
    else (0, c :: rest)

/-- Index of the first occurrence of `pat` as a contiguous sublist. -/
def findSubGo (pat : List Char) : Nat → List Char → Option Nat
  | i, [] => if pat.isEmpty then some i else none
  | i, c :: rest => if pat.isPrefixOf (c :: rest) then some i else findSubGo pat (i + 1) rest

/-- First index where `pat` occurs in `cs` (Python `str.find` on success). -/
def findSub (pat cs : List Char) : Option Nat := findSubGo pat 0 cs

/-- Index of the first occurrence of a character (`str.find`). -/
def firstIdxOf (c : Char) : List Char → Option Nat
  | [] => none
  | x :: rest =>
    if x = c then some 0
    else (firstIdxOf c rest).map (· + 1)

/-- Index of the last occurrence of a character (`str.rfind`). -/
def lastIdxOf (c : Char) (cs : List Char) : Option Nat :=
  (firstIdxOf c cs.reverse).map (fun j => cs.length - 1 - j)

/-- Python `str.split()` (split on whitespace runs, dropping empties);
fuel-driven, `fuel = length` always suffices. -/
def splitWsGo : Nat → List Char → List (List Char)
  | 0, _ => []
  | _, [] => []
  | n + 1, c :: rest =>
    if isSpaceCh c then splitWsGo n rest
    else
      let tok := (c :: rest).takeWhile (fun d => !isSpaceCh d)
      tok :: splitWsGo n ((c :: rest).dropWhile (fun d => !isSpaceCh d))

/-- Python `str.split()` on a char list. -/
def splitWsTokens (cs : List Char) : List (List Char) := splitWsGo cs.length cs

/-! ## Chess data model (board snapshots from the external rules engine) -/

/-- The six chess piece kinds (`PIECE_NAMES` keys / `chess.PieceType`). -/
inductive PieceKind where
  | king | queen | rook | bishop | knight | pawn
deriving DecidableEq, Repr

/-- Piece colours (`chess.WHITE` / `chess.BLACK`). -/
inductive PieceColor where
  | white | black
deriving DecidableEq, Repr

/-- A piece on the board: kind and colour. -/
structure Piece where
  kind : PieceKind
  color : PieceColor
deriving DecidableEq, Repr

/-- Algebraic square: file index (a=0..h=7) and rank index (1=0..8=7). -/
abbrev Square := Fin 8 × Fin 8

/-- Decoded board snapshot: `chess.Board.piece_at` as a function. The
invariant "at most one piece per square" holds by construction. -/
abbrev Board := Square → Option Piece

/-- An extracted claim: a piece kind and a square. -/
abbrev Claim := PieceKind × Square

/-- All 64 squares, for the `existsAnywhere` oracle query. -/
def allSquares : List Square :=
  (List.finRange 8).flatMap (fun f => (List.finRange 8).map (fun r => (f, r)))

/-- `board.pieces(kind, WHITE) | board.pieces(kind, BLACK)` nonempty: a piece
of the given kind exists anywhere on the board, for either colour. -/
def existsAnywhere (b : Board) (k : PieceKind) : Bool :=
  allSquares.any (fun sq =>
    match b sq with
    | some p => decide (p.kind = k)
    | none => false)

/-- Regex class `[a-h]` (lowercase), as a file index. -/
def fileOfChar (c : Char) : Option (Fin 8) :=
  if c = 'a' then some 0
  else if c = 'b' then some 1
  else if c = 'c' then some 2
  else if c = 'd' then some 3
  else if c = 'e' then some 4
  else if c = 'f' then some 5
  else if c = 'g' then some 6
  else if c = 'h' then some 7
  else none

/-- Regex class `[1-8]`, as a rank index. -/
def rankOfChar (c : Char) : Option (Fin 8) :=
  if c = '1' then some 0
  else if c = '2' then some 1
  else if c = '3' then some 2
  else if c = '4' then some 3
  else if c = '5' then some 4
  else if c = '6' then some 5
  else if c = '7' then some 6
  else if c = '8' then some 7
  else none

/-! ## ReferenceExtractor (`evaluator.extract_piece_refs`)

The natural-language grammar is `PIECE_REF_PATTERN`
`(?:(?:white|black)[possessive]?s?\s+)?(?:the\s+|a\s+)?(king|queen|rook|bishop|knight|pawn)(?:\s+on)?\s+([a-h][1-8])`
compiled with IGNORECASE. The optional colour-possessive and article
prefixes affect neither the captured groups nor the match end, nor which
groups `finditer` yields or in which order, so the embedded matcher
anchors at the piece word. -/

/-- Try each piece word of the alternation, case-insensitively, in the
pattern's order. -/
def pieceWordAt (cs : List Char) : Option (PieceKind × List Char) :=
  match matchWordCI ("king".toList) cs with
  | some r => some (PieceKind.king, r)
  | none =>
  match matchWordCI ("queen".toList) cs with
  | some r => some (PieceKind.queen, r)
  | none =>
  match matchWordCI ("rook".toList) cs with
  | some r => some (PieceKind.rook, r)
  | none =>
  match matchWordCI ("bishop".toList) cs with
  | some r => some (PieceKind.bishop, r)
  | none =>
  match matchWordCI ("knight".toList) cs with
  | some r => some (PieceKind.knight, r)
  | none =>
  match matchWordCI ("pawn".toList) cs with
  | some r => some (PieceKind.pawn, r)
  | none => none

/-- `[a-h][1-8]` under IGNORECASE (file letter may be upper case; the
source lowercases the captured square). -/
def trySquareCI : List Char → Option (Square × List Char)
  | f :: r :: rest =>
    match fileOfChar (lowerCh f), rankOfChar r with
    | some ff, some rk => some (((ff, rk) : Square), rest)
    | _, _ => none
  | _ => none

/-- The `(?:\s+on)?\s+([a-h][1-8])` tail after the piece word: the greedy
optional `\s+on` branch is tried first, then skipped. Whitespace runs
before the non-whitespace literals `on` and the square are necessarily
maximal. -/
def nlAfterPiece (cs : List Char) : Option (Square × List Char) :=
  let (n1, r1) := spanWs cs
  if n1 = 0 then none
  else
    let viaOn :=
      match matchWordCI ("on".toList) r1 with
      | some r2 =>
        let (n2, r3) := spanWs r2
        if n2 = 0 then none else trySquareCI r3
      | none => none
    match viaOn with
    | some res => some res
    | none => trySquareCI r1

/-- One attempt of `PIECE_REF_PATTERN` anchored at the current position
(at its piece word); returns the claim and the remainder after the match. -/
def nlMatchHere (cs : List Char) : Option (Claim × List Char) :=
  match pieceWordAt cs with
  | some (k, r) =>
    match nlAfterPiece r with
    | some (sq, r2) => some ((k, sq), r2)
    | none => none
  | none => none

/-- `finditer` scan of the natural-language pattern: try every position
left to right, resume after each match end. Fuel = input length (each
step consumes at least one character). -/
def nlScanGo : Nat → List Char → List Claim
  | 0, _ => []
  | _, [] => []
  | n + 1, c :: rest =>
    match nlMatchHere (c :: rest) with
    | some (cl, after) => cl :: nlScanGo n after
    | none => nlScanGo n rest

/-- All natural-language matches in textual order. -/
def nlMatches (cs : List Char) : List Claim := nlScanGo cs.length cs

/-- `K/Q/R/B/N/P` of `SAN_PIECE_PATTERN` (upper case only; the pattern is
compiled without IGNORECASE). -/
def sanSymOf (c : Char) : Option PieceKind :=
  if c = 'K' then some PieceKind.king
  else if c = 'Q' then some PieceKind.queen
  else if c = 'R' then some PieceKind.rook
  else if c = 'B' then some PieceKind.bishop
  else if c = 'N' then some PieceKind.knight
  else if c = 'P' then some PieceKind.pawn
  else none

/-- One attempt of `SAN_PIECE_PATTERN`
`(?<![a-zA-Z])([KQRBNP])([a-h][1-8])(?![a-zA-Z])` at the current position,
given the previous character (for the lookbehind). Returns the claim, the
last consumed character and the remainder. -/
def sanMatchHere (prev : Option Char) : List Char → Option (Claim × Char × List Char)
  | c :: f :: r :: rest =>
    match sanSymOf c, fileOfChar f, rankOfChar r with
    | some k, some ff, some rk =>
      let prevOk := match prev with
        | none => true
        | some p => !isAlphaCh p
      let nextOk := match rest with
        | [] => true
        | d :: _ => !isAlphaCh d
      if prevOk && nextOk then some ((k, ((ff, rk) : Square)), r, rest) else none
    | _, _, _ => none
  | _ => none

/-- `finditer` scan of the SAN pattern, tracking the previous character. -/
def sanScanGo : Nat → Option Char → List Char → List Claim
  | 0, _, _ => []
  | _, _, [] => []
  | n + 1, prev, c :: rest =>
    match sanMatchHere prev (c :: rest) with
    | some (cl, lastC, after) => cl :: sanScanGo n (some lastC) after
    | none => sanScanGo n (some c) rest

/-- All SAN-style matches in textual order. -/
def sanMatches (cs : List Char) : List Claim := sanScanGo cs.length none cs

/-- The `seen`-set accumulation of `extract_piece_refs`: append a claim
unless already present (the result list is exactly the seen set). -/
def addNew {α : Type} [DecidableEq α] (acc : List α) (c : α) : List α :=
  if c ∈ acc then acc else acc ++ [c]

/-- `extract_piece_refs`: natural-language matches first, then SAN-style
matches, de-duplicated through one shared seen set. -/
def extract_piece_refs (cs : List Char) : List Claim :=
  (nlMatches cs ++ sanMatches cs).foldl addNew []

/-! ## HallucinationScorer (`evaluator.hallucination_score`) -/

/-- The per-reference loop of `hallucination_score`, accumulating the worst
severity. On a matching occupant the loop `continue`s; an occupied square
with a mismatched kind scores 1; an empty square scores 2 when the kind
exists anywhere on the board (either colour) and 3 otherwise. -/
def hswLoop (b : Board) : List Claim → Nat → Nat
  | [], worst => worst
  | (k, sq) :: rest, worst =>
    match b sq with
    | some p =>
      if p.kind = k then hswLoop b rest worst
      else hswLoop b rest (max worst 1)
    | none =>
      if existsAnywhere b k then hswLoop b rest (max worst 2)
      else hswLoop b rest (max worst 3)

/-- `hallucination_score(response, fen)`: `chess.Board(fen)` raising
`ValueError` is the `none` case (return 0); otherwise extract references
and return the worst per-reference severity (0 when there are none). -/
def hallucination_score (response : List Char) (pos : Option Board) : Nat :=
  match pos with
  | none => 0
  | some b =>
    let refs := extract_piece_refs response
    if refs = [] then 0
    else hswLoop b refs 0

/-! ## `evaluator.validate_pieces` -/

/-- `validate_pieces(refs, fen)`: empty/"none" refs are vacuously valid
before the position is ever decoded; an undecodable position then fails;
otherwise every extracted reference must name a square occupied by a
piece of the claimed kind (and no parsable reference is vacuously valid). -/
def validate_pieces (refs : List Char) (pos : Option Board) : Bool :=
  let r := lowerStr (pstrip refs)
  if r = [] ∨ r = ("none".toList) then true
  else
    match pos with
    | none => false
    | some b =>
      let prs := extract_piece_refs r
      if prs = [] then true
      else prs.all (fun c =>
        match b c.2 with
        | none => false
        | some p => decide (p.kind = c.1))

/-! ## PostValidationFilter (`bench_shallow_fix.post_validate_refs`)

The embedded function is the core of `post_validate_refs` operating on the
raw refs string (the source wraps this core in a REFS:/COACHING: line
extraction and re-assembly; the spec's `clean(rawRefs, position)` is this
core). `bench_final_accuracy.post_validate_response` runs the same
fragment loop without the fallback. -/

/-- First `[a-h][1-8]` occurrence (no word boundaries, lowercase classes),
the `re.search(r'([a-h][1-8])', ref)` of the filter. -/
def firstSquareTok : List Char → Option Square
  | c :: r :: rest =>
    match fileOfChar c, rankOfChar r with
    | some f, some k => some ((f, k) : Square)
    | _, _ => firstSquareTok (r :: rest)
  | _ => none

/-- Keep a fragment: fragments with a recognizable square token survive iff
that (first) square is occupied; fragments without one are kept verbatim. -/
def keepFragment (b : Board) (ref : List Char) : Bool :=
  match firstSquareTok ref with
  | some sq => (b sq).isSome
  | none => true

/-- The validation loop over the comma-separated fragments: kept fragments
in order plus the rejected count. -/
def cleanLoop (b : Board) : List (List Char) → List (List Char) × Nat
  | [] => ([], 0)
  | ref :: rest =>
    let p := cleanLoop b rest
    match firstSquareTok ref with
    | some sq => if (b sq).isSome then (ref :: p.1, p.2) else (p.1, p.2 + 1)
    | none => (ref :: p.1, p.2)

/-- `post_validate_refs` core: split the raw refs on commas, strip each
fragment, run the loop, and substitute the fixed fallback `"current
position"` when everything was rejected. Returns (cleaned fragments,
rejected count). -/
def post_validate_core (raw : List Char) (b : Board) : List (List Char) × Nat :=
  let parts := (splitOnChar ',' raw).map pstrip
  let cleaned := cleanLoop b parts
  (if cleaned.1 = [] then [("current position".toList)] else cleaned.1, cleaned.2)

/-- `", ".join(validated)`: how the kept fragments are re-assembled into the
delivered refs string. -/
def joinCS : List (List Char) → List Char
  | [] => []
  | [x] => x
  | x :: xs => x ++ ',' :: ' ' :: joinCS xs

/-! ## `bench_m4.parse_refs` and `bench_m4.validate_refs` -/

/-- `PIECE_MAP` of bench_m4: exact lowercase word to piece kind. -/
def pieceMapM4 (tok : List Char) : Option PieceKind :=
  if tok = ("king".toList) then some PieceKind.king
  else if tok = ("queen".toList) then some PieceKind.queen
  else if tok = ("rook".toList) then some PieceKind.rook
  else if tok = ("bishop".toList) then some PieceKind.bishop
  else if tok = ("knight".toList) then some PieceKind.knight
  else if tok = ("pawn".toList) then some PieceKind.pawn
  else none

/-- bench_m4 `SQUARE_RE` = `\b([a-h][1-8])\b`: first square token with word
boundaries on both sides, scanning left to right with the previous
character tracked for the left boundary. -/
def firstSquareWBGo : Option Char → List Char → Option Square
  | _, [] => none
  | prev, c :: rest =>
    match fileOfChar c, rest with
    | some f, r :: rest2 =>
      (match rankOfChar r with
       | some rk =>
         let prevOk := match prev with
           | none => true
           | some p => !isWordCh p
         let nextOk := match rest2 with
           | [] => true
           | d :: _ => !isWordCh d
         if prevOk && nextOk then some ((f, rk) : Square)
         else firstSquareWBGo (some c) rest
       | none => firstSquareWBGo (some c) rest)
    | _, _ => firstSquareWBGo (some c) rest

/-- `SQUARE_RE.search` on a fragment. -/
def firstSquareWB (cs : List Char) : Option Square := firstSquareWBGo none cs

/-- `parse_refs(s)`: empty or "none" yields no refs; otherwise each comma
fragment is stripped and lowercased, its first whitespace token looked up
in `PIECE_MAP` (missing → `none` kind), and its first bounded square token
(if any) recorded as `(square, kind)`. -/
def parse_refs (s : List Char) : List (Square × Option PieceKind) :=
  if s = [] ∨ lowerStr (pstrip s) = ("none".toList) then []
  else
    (splitOnChar ',' s).foldl (fun acc part =>
      let trimmed := lowerStr (pstrip part)
      let kind := ((splitWsTokens trimmed).head?).bind pieceMapM4
      match firstSquareWB trimmed with
      | some sq => acc ++ [(sq, kind)]
      | none => acc) []

/-- `validate_refs(refs, fen)`: count valid/invalid refs; an empty square is
invalid, a kindless ref is valid on any occupant, a kinded ref needs a
matching occupant kind. -/
def validate_refs (refs : List (Square × Option PieceKind)) (b : Board) : Nat × Nat :=
  refs.foldl (fun vi r =>
    match b r.1 with
    | none => (vi.1, vi.2 + 1)
    | some p =>
      match r.2 with
      | some k => if p.kind = k then (vi.1 + 1, vi.2) else (vi.1, vi.2 + 1)
      | none => (vi.1 + 1, vi.2)) (0, 0)

/-! ## JSON values and a strict parser (`json.loads` on the object fragment)

The parser models Python `json.loads` on the JSON subset the scripts
exchange: objects, arrays, double-quoted strings with standard escapes,
integer numbers, `true`/`false`/`null`. Strictness mirrors the library:
lowercase literals only, no trailing data, no raw control characters in
strings, no leading zeros. Fractional/exponent numbers are out of the
model (no claim involves floats); the parser rejects them. -/

/-- JSON values. -/
inductive JVal where
  | jnull : JVal
  | jbool : Bool → JVal
  | jnum : Int → JVal
  | jstr : List Char → JVal
  | jarr : List JVal → JVal
  | jobj : List (List Char × JVal) → JVal

/-- JSON whitespace (the four characters `json.loads` skips). -/
def isJsonWs (c : Char) : Bool := c = ' ' ∨ c = '\t' ∨ c = '\n' ∨ c = '\r'

/-- Skip JSON whitespace. -/
def skipWsJ (cs : List Char) : List Char := cs.dropWhile isJsonWs

/-- Decimal digit value. -/
def digitVal (c : Char) : Option Nat :=
  if '0' ≤ c ∧ c ≤ '9' then some (c.toNat - 48) else none

/-- Hex digit value, for `\uXXXX` escapes. -/
def hexVal (c : Char) : Option Nat :=
  if '0' ≤ c ∧ c ≤ '9' then some (c.toNat - 48)
  else if 'a' ≤ c ∧ c ≤ 'f' then some (c.toNat - 87)
  else if 'A' ≤ c ∧ c ≤ 'F' then some (c.toNat - 55)
  else none

/-- Parse the body of a JSON string after the opening quote: returns the
decoded characters and the remainder after the closing quote. Raw control
characters and invalid escapes are rejected, as in strict `json.loads`. -/
def parseStrGo : List Char → Option (List Char × List Char)
  | [] => none
  | c :: rest =>
    if c = '"' then some ([], rest)
    else if c = '\\' then
      match rest with
      | [] => none
      | e :: r2 =>
        if e = '"' then (parseStrGo r2).map (fun p => ('"' :: p.1, p.2))
        else if e = '\\' then (parseStrGo r2).map (fun p => ('\\' :: p.1, p.2))
        else if e = '/' then (parseStrGo r2).map (fun p => ('/' :: p.1, p.2))
        else if e = 'b' then (parseStrGo r2).map (fun p => ('\x08' :: p.1, p.2))
        else if e = 'f' then (parseStrGo r2).map (fun p => ('\x0c' :: p.1, p.2))
        else if e = 'n' then (parseStrGo r2).map (fun p => ('\n' :: p.1, p.2))
        else if e = 'r' then (parseStrGo r2).map (fun p => ('\r' :: p.1, p.2))
        else if e = 't' then (parseStrGo r2).map (fun p => ('\t' :: p.1, p.2))
        else if e = 'u' then
          match r2 with
          | h1 :: h2 :: h3 :: h4 :: r3 =>
            match hexVal h1, hexVal h2, hexVal h3, hexVal h4 with
            | some a, some b, some c2, some d =>
              (parseStrGo r3).map (fun p =>
                (Char.ofNat (((a * 16 + b) * 16 + c2) * 16 + d) :: p.1, p.2))
            | _, _, _, _ => none
          | _ => none
        else none
    else if c.toNat < 32 then none
    else (parseStrGo rest).map (fun p => (c :: p.1, p.2))

/-- Parse a nonempty digit run as a number, rejecting leading zeros and a
following `.`/`e`/`E` (floats are outside the model). -/
def parseDigits (cs : List Char) : Option (Nat × List Char) :=
  let digs := cs.takeWhile (fun c => (digitVal c).isSome)
  let rest := cs.dropWhile (fun c => (digitVal c).isSome)
  match digs with
  | [] => none
  | d :: ds =>
    if d = '0' ∧ ds ≠ [] then none
    else
      match rest with
      | r :: _ => if r = '.' ∨ r = 'e' ∨ r = 'E' then none
                  else some (digs.foldl (fun n c => n * 10 + (c.toNat - 48)) 0, rest)
      | [] => some (digs.foldl (fun n c => n * 10 + (c.toNat - 48)) 0, rest)

mutual

/-- Parse one JSON value (fuel-driven; `jsonParse` supplies ample fuel). -/
def parseVal : Nat → List Char → Option (JVal × List Char)
  | 0, _ => none
  | n + 1, cs =>
    match skipWsJ cs with
    | [] => none
    | c :: rest =>
      if c = lbrace then
        match skipWsJ rest with
        | d :: r2 =>
          if d = rbrace then some (JVal.jobj [], r2)
          else parseMembers n (skipWsJ rest)
        | [] => none
      else if c = '[' then
        match skipWsJ rest with
        | d :: r2 =>
          if d = ']' then some (JVal.jarr [], r2)
          else (parseItems n (skipWsJ rest)).map (fun p => (JVal.jarr p.1, p.2))
        | [] => none
      else if c = '"' then (parseStrGo rest).map (fun p => (JVal.jstr p.1, p.2))
      else if c = 't' then
        match litAt ("rue".toList) rest with
        | some r => some (JVal.jbool true, r)
        | none => none
      else if c = 'f' then
        match litAt ("alse".toList) rest with
        | some r => some (JVal.jbool false, r)
        | none => none
      else if c = 'n' then
        match litAt ("ull".toList) rest with
        | some r => some (JVal.jnull, r)
        | none => none
      else if c = '-' then
        (parseDigits rest).map (fun p => (JVal.jnum (-(p.1 : Int)), p.2))
      else
        (parseDigits (c :: rest)).map (fun p => (JVal.jnum (p.1 : Int), p.2))

/-- Parse the members of an object, positioned at the first key. -/
def parseMembers : Nat → List Char → Option (JVal × List Char)
  | 0, _ => none
  | n + 1, cs =>
    match cs with
    | '"' :: r =>
      match parseStrGo r with
      | none => none
      | some (key, r2) =>
        match skipWsJ r2 with
        | ':' :: r3 =>
          match parseVal n r3 with
          | none => none
          | some (v, r4) =>
            match skipWsJ r4 with
            | ',' :: r5 =>
              (match parseMembers n (skipWsJ r5) with
               | some (JVal.jobj fs, r6) => some (JVal.jobj ((key, v) :: fs), r6)
               | _ => none)
            | d :: r5 => if d = rbrace then some (JVal.jobj [(key, v)], r5) else none
            | [] => none
        | _ => none
    | _ => none

/-- Parse the items of an array, positioned at the first item. -/
def parseItems : Nat → List Char → Option (List JVal × List Char)
  | 0, _ => none
  | n + 1, cs =>
    match parseVal n cs with
    | none => none
    | some (v, r) =>
      match skipWsJ r with
      | ',' :: r2 =>
        (match parseItems n (skipWsJ r2) with
         | some (vs, r3) => some (v :: vs, r3)
         | none => none)
      | ']' :: r2 => some ([v], r2)
      | _ => none

end

/-- `json.loads`: parse one value and require only whitespace after it. -/
def jsonParse (cs : List Char) : Option JVal :=
  match parseVal (8 * (cs.length + 1)) cs with
  | some (v, rest) => if skipWsJ rest = [] then some v else none
  | none => none

/-! ## `evaluator.parse_json_response` -/

/-- The fenced-block extraction regex of `parse_json_response`:
search for the first fence, optionally consume a literal `json` tag,
then the maximal whitespace run (the greedy `\s*\n?`), and capture
non-greedily up to the next fence. -/
def fencedContent (cs : List Char) : Option (List Char) :=
  match findSub ("```".toList) cs with
  | none => none
  | some i =>
    let after := cs.drop (i + 3)
    let after2 :=
      match litAt ("json".toList) after with
      | some x => x
      | none => after
    let after3 := after2.dropWhile isSpaceCh
    match findSub ("```".toList) after3 with
    | none => none
    | some j => some (after3.take j)

/-- The outermost-brace scan of `parse_json_response`: depth counting over
all characters (an `Int`, as stray closers drive it negative), recording a
start at depth 0, and attempting `json.loads` on each balanced region,
clearing the start on failure. -/
def braceGo (orig : List Char) : List Char → Nat → Int → Option Nat → Option JVal
  | [], _, _, _ => none
  | c :: rest, i, depth, start =>
    if c = lbrace then
      braceGo orig rest (i + 1) (depth + 1) (if depth = 0 then some i else start)
    else if c = rbrace then
      if depth - 1 = 0 then
        match start with
        | some s =>
          (match jsonParse ((orig.drop s).take (i + 1 - s)) with
           | some v => some v
           | none => braceGo orig rest (i + 1) (depth - 1) none)
        | none => braceGo orig rest (i + 1) (depth - 1) start
      else braceGo orig rest (i + 1) (depth - 1) start
    else braceGo orig rest (i + 1) depth start

/-- `parse_json_response(response)`: fenced JSON first, then the raw
outermost-brace scan, then a last-resort parse of the whole (stripped)
response; `None` on failure. -/
def parse_json_response (cs : List Char) : Option JVal :=
  match (match fencedContent cs with
         | some content => jsonParse (pstrip content)
         | none => none) with
  | some v => some v
  | none =>
    match braceGo cs cs 0 0 none with
    | some v => some v
    | none => jsonParse (pstrip cs)

/-! ## `evaluator.format_ok` and its helpers -/

/-- The think-tag strip at the top of `format_ok`:
`re.search(r"</think>\s*", response)` and keep (and strip) everything
after the match end. The greedy `\s*` consumes the maximal whitespace run. -/
def dropThink (cs : List Char) : List Char :=
  match findSub ("</think>".toList) cs with
  | some i => pstrip ((cs.drop (i + 8)).dropWhile isSpaceCh)
  | none => cs

/-- Match `[ \t]*LABEL\s*[:=]` at the current position, case-insensitively:
a run of spaces/tabs, the label word, any whitespace (the `\s*` may cross
newlines), then a colon or equals sign. -/
def labelHere (lbl cs : List Char) : Bool :=
  let r1 := cs.dropWhile (fun c => c = ' ' || c = '\t')
  match matchWordCI lbl r1 with
  | none => false
  | some r2 =>
    match r2.dropWhile isSpaceCh with
    | [] => false
    | c :: _ => c = ':' ∨ c = '='

/-- `re.search` with a `^`-anchored MULTILINE pattern: try the match at the
string start and after every newline. -/
def searchLabelGo (lbl : List Char) : Bool → List Char → Bool
  | atStart, [] => atStart && labelHere lbl []
  | atStart, c :: rest =>
    if atStart && labelHere lbl (c :: rest) then true
    else searchLabelGo lbl (c = '\n') rest

/-- `re.search(r"(?i)^[ \t]*LABEL\s*[:=]...", text, re.MULTILINE)` as a
boolean. -/
def searchLabel (lbl cs : List Char) : Bool := searchLabelGo lbl true cs

/-- The `ok` field of `parse_refs_coaching`: both a REFS and a COACHING
label line must be found (the captured remainder strings are not needed
by any claim). -/
def parse_refs_coaching_ok (cs : List Char) : Bool :=
  searchLabel ("refs".toList) cs && searchLabel ("coaching".toList) cs

/-- `re.search(r"```(?:json)?\s*\n?\s*\{.*?\}\s*```", response, re.DOTALL)`:
the closing-side scan — some closing brace followed by whitespace and a
fence. -/
def closeScan : List Char → Bool
  | [] => false
  | c :: rest =>
    if c = rbrace ∧ ("```".toList).isPrefixOf (rest.dropWhile isSpaceCh) then true
    else closeScan rest

/-- One anchored attempt of the fenced-JSON detection regex. -/
def fencedHere (cs : List Char) : Bool :=
  match litAt ("```".toList) cs with
  | none => false
  | some r1 =>
    let r2 :=
      match litAt ("json".toList) r1 with
      | some x => x
      | none => r1
    match r2.dropWhile isSpaceCh with
    | c :: r3 => if c = lbrace then closeScan r3 else false
    | [] => false

/-- `re.search` of the fenced-JSON detection regex: try every position. -/
def fencedSearch : List Char → Bool
  | [] => false
  | c :: rest => fencedHere (c :: rest) || fencedSearch rest

/-- The format identifiers needed by the claims (the source dispatches on
the same ids as strings; the remaining schema ids of `format_ok` are not
referenced by any claim and are omitted from the embedding). -/
inductive FormatId where
  | refs_coaching | json_flat | fenced_json
deriving DecidableEq, Repr

/-- `format_ok(response, expected_format)` restricted to the embedded ids:
strip, fail on empty, strip a leading reasoning block, fail on empty,
then dispatch on the id. -/
def format_ok (resp : List Char) (fmt : FormatId) : Bool :=
  let r1 := pstrip resp
  if r1 = [] then false
  else
    let r2 := dropThink r1
    if r2 = [] then false
    else
      match fmt with
      | FormatId.refs_coaching => parse_refs_coaching_ok r2
      | FormatId.json_flat => (parse_json_response r2).isSome
      | FormatId.fenced_json => fencedSearch r2

/-! ## `bench_m4.parse_alignment_json` and its repair pass -/

/-- `re.sub(r'<think>.*?</think>', '', text, flags=re.DOTALL)`: repeatedly
remove the leftmost `<think>`...`</think>` region (non-greedy closing) and
continue after it; if no closing tag follows the first opening tag, no
further match exists and the text is returned unchanged. Fuel = length. -/
def stripThinkGo : Nat → List Char → List Char
  | 0, cs => cs
  | n + 1, cs =>
    match findSub ("<think>".toList) cs with
    | none => cs
    | some i =>
      let afterOpen := cs.drop (i + 7)
      match findSub ("</think>".toList) afterOpen with
      | none => cs
      | some j => cs.take i ++ stripThinkGo n (afterOpen.drop (j + 8))

/-- Remove all `<think>...</think>` blocks. -/
def stripThinkBlocks (cs : List Char) : List Char := stripThinkGo cs.length cs

/-- `start = text.find('{'); end = text.rfind('}')`: the brace-bounded
candidate slice `text[start:end+1]` (empty when `end < start`, as in
Python), or `None` when either brace is missing. -/
def braceCandidate (cs : List Char) : Option (List Char) :=
  match firstIdxOf lbrace cs, lastIdxOf rbrace cs with
  | some i, some j => some ((cs.drop i).take (j + 1 - i))
  | _, _ => none

/-- Does the list end with three closing braces? -/
def endsTriple (cs : List Char) : Bool :=
  match cs.reverse with
  | a :: b :: c :: _ => a = rbrace ∧ b = rbrace ∧ c = rbrace
  | _ => false

/-- `while txt.endswith('}}}'): txt = txt[:-1]` (fuel = length suffices:
each iteration drops one character). -/
def stripTripleGo : Nat → List Char → List Char
  | 0, cs => cs
  | n + 1, cs => if endsTriple cs then stripTripleGo n cs.dropLast else cs

/-- Strip accidental doubled trailing braces. -/
def stripTripleBraces (cs : List Char) : List Char := stripTripleGo cs.length cs

/-- Word-boundary `\b` after a matched word: the next character must not be
a word character. -/
def wordBreakAt : List Char → Bool
  | [] => true
  | d :: _ => !isWordCh d

/-- The boolean-literal repair at a colon:
`re.sub(r':\s*(True|False)\b', lambda m: f': {m.group(1).lower()}', txt)`.
Returns the lowered word and the remainder when the pattern matches just
after a colon. -/
def boolRepl (rest : List Char) : Option (List Char × List Char) :=
  let r1 := rest.dropWhile isSpaceCh
  match litAt ("True".toList) r1 with
  | some r2 => if wordBreakAt r2 then some ("true".toList, r2) else none
  | none =>
    match litAt ("False".toList) r1 with
    | some r2 => if wordBreakAt r2 then some ("false".toList, r2) else none
    | none => none

/-- Scan of the boolean repair substitution (non-overlapping, resuming
after each replacement, which rewrites the matched region to
`': ' + word.lower()`). -/
def subBoolGo : Nat → List Char → List Char
  | 0, cs => cs
  | _, [] => []
  | n + 1, c :: rest =>
    if c = ':' then
      match boolRepl rest with
      | some (w, r2) => ':' :: ' ' :: (w ++ subBoolGo n r2)
      | none => c :: subBoolGo n rest
    else c :: subBoolGo n rest

/-- Normalize capitalized boolean literals after colons. -/
def subBool (cs : List Char) : List Char := subBoolGo cs.length cs

/-- The enum-word repair at a colon:
`re.sub(r':\s*(positive|negative|neutral)\b', r': "\1"', txt)` — the
alternation is tried left to right. -/
def enumRepl (rest : List Char) : Option (List Char × List Char) :=
  let r1 := rest.dropWhile isSpaceCh
  match litAt ("positive".toList) r1 with
  | some r2 => if wordBreakAt r2 then some ("positive".toList, r2) else none
  | none =>
    match litAt ("negative".toList) r1 with
    | some r2 => if wordBreakAt r2 then some ("negative".toList, r2) else none
    | none =>
      match litAt ("neutral".toList) r1 with
      | some r2 => if wordBreakAt r2 then some ("neutral".toList, r2) else none
      | none => none

/-- Scan of the enum repair substitution (replacement `': "word"'`). -/
def subEnumGo : Nat → List Char → List Char
  | 0, cs => cs
  | _, [] => []
  | n + 1, c :: rest =>
    if c = ':' then
      match enumRepl rest with
      | some (w, r2) => ':' :: ' ' :: '"' :: (w ++ '"' :: subEnumGo n r2)
      | none => c :: subEnumGo n rest
    else c :: subEnumGo n rest

/-- Quote bare enum-like words after colons. -/
def subEnum (cs : List Char) : List Char := subEnumGo cs.length cs

/-- Does a brace-free run contain `"alignment"` followed by `\s*:\s*\d`? -/
def alignKeyIn : List Char → Bool
  | [] => false
  | c :: rest =>
    (match litAt ("\"alignment\"".toList) (c :: rest) with
     | some r =>
       (match (r.dropWhile isSpaceCh) with
        | ':' :: r3 =>
          (match (r3.dropWhile isSpaceCh) with
           | d :: _ => (digitVal d).isSome
           | [] => false)
        | _ => false)
     | none => false)
    || alignKeyIn rest

/-- Leftmost match of the last-resort pattern
`\{[^{}]*"alignment"\s*:\s*\d+[^{}]*\}`: at each opening brace, the
brace-free run must terminate at a closing brace and contain the
`"alignment": <digits>` key; the matched substring spans the whole region. -/
def alignSearch : List Char → Option (List Char)
  | [] => none
  | c :: rest =>
    if c = lbrace then
      let run := rest.takeWhile (fun d => d ≠ lbrace ∧ d ≠ rbrace)
      match rest.drop run.length with
      | d :: _ =>
        if d = rbrace ∧ alignKeyIn run then some (lbrace :: run ++ [rbrace])
        else alignSearch rest
      | [] => alignSearch rest
    else alignSearch rest

/-- The last-resort branch: parse the leftmost simple-object match, if any. -/
def alignFallback (text : List Char) : Option JVal :=
  match alignSearch text with
  | some seg => jsonParse seg
  | none => none

/-- `parse_alignment_json(response)`: strip, remove think blocks, strip,
slice between the outermost braces, strip doubled trailing braces, repair
booleans and enum words, `json.loads`; on failure fall back to the simple
`"alignment"` object search. -/
def parse_alignment_json (s : List Char) : Option JVal :=
  let text := pstrip (stripThinkBlocks (pstrip s))
  match braceCandidate text with
  | none => none
  | some raw =>
    match jsonParse (subEnum (subBool (stripTripleBraces raw))) with
    | some v => some v
    | none => alignFallback text

/-! ## Specification-side definitions

These definitions follow the wording of the specification/claims and are
compared against the source-derived definitions above. -/

/-- The per-claim severity tier as the specification words it: 0 when the
square holds a piece of the claimed kind, 1 when it is occupied by a
different kind, 2 when it is empty but the claimed kind exists elsewhere
on the board for either colour, 3 when it is empty and the kind exists
nowhere. -/
def claimTier (b : Board) (c : Claim) : Nat :=
  match b c.2 with
  | some p => if p.kind = c.1 then 0 else 1
  | none => if existsAnywhere b c.1 then 2 else 3

/-- First-occurrence de-duplication: keep each element's first occurrence,
in order. -/
def dedupFirst {α : Type} [DecidableEq α] : List α → List α
  | [] => []
  | x :: xs => x :: dedupFirst (xs.filter (fun y => y ≠ x))
termination_by l => l.length
decreasing_by
  simp only [List.length_cons]
  exact Nat.lt_succ_of_le (List.length_filter_le _ _)

/-- Natural-language scan that also records the text position of each
match (at its piece word). -/
def nlScanIdxGo : Nat → Nat → List Char → List (Nat × Claim)
  | 0, _, _ => []
  | _, _, [] => []
  | n + 1, p, c :: rest =>
    match nlMatchHere (c :: rest) with
    | some (cl, after) => (p, cl) :: nlScanIdxGo n (p + ((c :: rest).length - after.length)) after
    | none => nlScanIdxGo n (p + 1) rest

/-- Indexed natural-language matches. -/
def nlMatchesIdx (cs : List Char) : List (Nat × Claim) := nlScanIdxGo cs.length 0 cs

/-- SAN scan that also records the text position of each match. -/
def sanScanIdxGo : Nat → Nat → Option Char → List Char → List (Nat × Claim)
  | 0, _, _, _ => []
  | _, _, _, [] => []
  | n + 1, p, prev, c :: rest =>
    match sanMatchHere prev (c :: rest) with
    | some (cl, lastC, after) => (p, cl) :: sanScanIdxGo n (p + ((c :: rest).length - after.length)) (some lastC) after
    | none => sanScanIdxGo n (p + 1) (some c) rest

/-- Indexed SAN matches. -/
def sanMatchesIdx (cs : List Char) : List (Nat × Claim) := sanScanIdxGo cs.length 0 none cs

/-- Insertion of an indexed claim into a position-sorted list. -/
def insertByIdx (x : Nat × Claim) : List (Nat × Claim) → List (Nat × Claim)
  | [] => [x]
  | y :: ys => if x.1 ≤ y.1 then x :: y :: ys else y :: insertByIdx x ys

/-- Position-sort of indexed claims. -/
def sortByIdx : List (Nat × Claim) → List (Nat × Claim)
  | [] => []
  | x :: xs => insertByIdx x (sortByIdx xs)

/-- The claim order the specification describes for `extractReferences`:
claims ordered by the position of their first occurrence in the text,
with the two grammars' matches merged, duplicates collapsed. -/
def specFirstSeenOrder (cs : List Char) : List Claim :=
  dedupFirst ((sortByIdx (nlMatchesIdx cs ++ sanMatchesIdx cs)).map (fun x => x.2))

/-- All (possibly overlapping) square tokens occurring in a fragment —
the "square references appearing in the delivered refs" of the
PostValidationFilter guarantee. -/
def allSquareToks : List Char → List Square
  | c :: r :: rest =>
    (match fileOfChar c, rankOfChar r with
     | some f, some k => [((f, k) : Square)]
     | _, _ => []) ++ allSquareToks (r :: rest)
  | _ => []

/-- The claim's literal reading of the refs_coaching rule: a line matching
`^LABEL:\s*(.*)` — i.e. the label immediately followed by a colon at a
line start (case-insensitively). -/
def strictLabelHere (lblColon cs : List Char) : Bool :=
  (matchWordCI lblColon cs).isSome

/-- Search the strict label rule at the string start and after every
newline. -/
def strictSearchGo (lblColon : List Char) : Bool → List Char → Bool
  | atStart, [] => atStart && strictLabelHere lblColon []
  | atStart, c :: rest =>
    if atStart && strictLabelHere lblColon (c :: rest) then true
    else strictSearchGo lblColon (c = '\n') rest

/-- Does the text contain a line matching `^LABEL:` (multiline,
case-insensitive)? -/
def strictSearch (lblColon cs : List Char) : Bool := strictSearchGo lblColon true cs

/-- The specification-side reading of a fenced code block holding a JSON
object: a fence opened by three backticks with an arbitrary info string,
whose body parses as a JSON object. -/
def FencedJsonBlock (s : List Char) : Prop :=
  ∃ pre lang body post,
    s = pre ++ ("```".toList) ++ lang ++ '\n' :: body ++ ("\n```".toList) ++ post
      ∧ (∀ c ∈ lang, c ≠ '\n' ∧ c ≠ '`')
      ∧ ∃ fields, jsonParse (pstrip body) = some (JVal.jobj fields)

/-- The structural reading of "the label occurs at a line start" used to
characterize the MULTILINE label search: some decomposition into a prefix
that is empty or ends with a newline, and a suffix where the label rule
matches. -/
def LineStartLabel (lbl cs : List Char) : Prop :=
  ∃ pre suf, cs = pre ++ suf ∧ (pre = [] ∨ ∃ p, pre = p ++ ['\n']) ∧ labelHere lbl suf = true

/-! ## Theorems -/

/-- The scoring loop accumulates exactly the maximum of the per-claim
tiers. -/
theorem hswLoop_eq (b : Board) (l : List Claim) : ∀ (w : Nat),
    hswLoop b l w = max w ((l.map (claimTier b)).foldr max 0) := by
  induction l with
  | nil => intro w; simp [hswLoop]
  | cons c rest ih =>
    intro w
    obtain ⟨k, sq⟩ := c
    simp only [List.map_cons, List.foldr_cons]
    cases h : b sq with
    | some p =>
      by_cases hk : p.kind = k
      · rw [show hswLoop b ((k, sq) :: rest) w = hswLoop b rest w from by
          simp [hswLoop, h, hk]]
        rw [show claimTier b (k, sq) = 0 from by simp [claimTier, h, hk]]
        rw [ih w]
        omega
      · rw [show hswLoop b ((k, sq) :: rest) w = hswLoop b rest (max w 1) from by
          simp [hswLoop, h, hk]]
        rw [show claimTier b (k, sq) = 1 from by simp [claimTier, h, hk]]
        rw [ih (max w 1)]
        omega
    | none =>
      by_cases he : existsAnywhere b k = true
      · rw [show hswLoop b ((k, sq) :: rest) w = hswLoop b rest (max w 2) from by
          simp [hswLoop, h, he]]
        rw [show claimTier b (k, sq) = 2 from by simp [claimTier, h, he]]
        rw [ih (max w 2)]
        omega
      · rw [show hswLoop b ((k, sq) :: rest) w = hswLoop b rest (max w 3) from by
          simp [hswLoop, h, he]]
        rw [show claimTier b (k, sq) = 3 from by simp [claimTier, h, he]]
        rw [ih (max w 3)]
        omega

/-- Claim C1: for every decodable position and every response text, the
hallucination score is the maximum over all extracted (kind, square)
claims of the per-claim tier (0: claimed kind on the square; 1: other
kind on the square; 2: square empty, kind exists elsewhere for either
colour; 3: square empty, kind nowhere on the board), and 0 with no
claims. -/
theorem hallucination_score_is_max_tier (b : Board) (resp : List Char) :
    hallucination_score resp (some b)
      = ((extract_piece_refs resp).map (claimTier b)).foldr max 0 := by
  unfold hallucination_score
  cases h : extract_piece_refs resp with
  | nil => simp [h]
  | cons c rest =>
    simp only [h]
    rw [if_neg (by simp)]
    rw [hswLoop_eq]
    omega

/-- Claim C4: when the board-position string cannot be decoded, the score
is 0 regardless of the response text. -/
theorem hallucination_score_malformed_zero (resp : List Char) :
    hallucination_score resp none = 0 := rfl

/-- Claim C10: `validate_pieces` over an undecodable position is
asymmetric in the refs string: refs normalizing to empty or "none" give
`True` for any position argument (even a malformed one); any other refs
string gives `False` over a malformed position; and over a valid position
the result is `True` whenever no piece reference parses from the refs. -/
theorem validate_pieces_policy (refs : List Char) :
    (∀ pos : Option Board,
      (lowerStr (pstrip refs) = [] ∨ lowerStr (pstrip refs) = ("none".toList)) →
        validate_pieces refs pos = true)
    ∧ ((lowerStr (pstrip refs) ≠ [] ∧ lowerStr (pstrip refs) ≠ ("none".toList)) →
        validate_pieces refs none = false)
    ∧ (∀ b : Board, lowerStr (pstrip refs) ≠ [] → lowerStr (pstrip refs) ≠ ("none".toList) →
        extract_piece_refs (lowerStr (pstrip refs)) = [] →
        validate_pieces refs (some b) = true) := by
  refine ⟨?_, ?_, ?_⟩
  · intro pos hcond
    rcases hcond with h | h <;> simp [validate_pieces, h]
  · intro ⟨h1, h2⟩
    have h2' : lowerStr (pstrip refs) ≠ ['n', 'o', 'n', 'e'] := by simpa using h2
    simp [validate_pieces, h1, h2']
  · intro b h1 h2 hext
    have h2' : lowerStr (pstrip refs) ≠ ['n', 'o', 'n', 'e'] := by simpa using h2
    simp [validate_pieces, h1, h2', hext]

/-- Concrete instantiation of the `validate_pieces` policy theorem. -/
theorem validate_pieces_policy_witness :
    validate_pieces (" None ".toList) none = true
    ∧ validate_pieces ("bishop e5".toList) none = false
    ∧ validate_pieces ("hello".toList) (some (fun _ => none)) = true :=
  ⟨(validate_pieces_policy _).1 none (by decide),
   (validate_pieces_policy _).2.1 (by decide),
   (validate_pieces_policy _).2.2 (fun _ => none) (by decide) (by decide) (by decide)⟩

/-- The seen-set fold of `extract_piece_refs` is first-occurrence
de-duplication of whatever list it processes. -/
theorem foldl_addNew_eq {α : Type} [DecidableEq α] (l : List α) : ∀ (acc : List α),
    l.foldl addNew acc = acc ++ dedupFirst (l.filter (fun y => y ∉ acc)) := by
  induction l with
  | nil => intro acc; simp [dedupFirst]
  | cons x xs ih =>
    intro acc
    by_cases hx : x ∈ acc
    · have ha : addNew acc x = acc := by simp [addNew, hx]
      rw [List.foldl_cons, ha, ih]
      congr 2
      simp [List.filter_cons, hx]
    · have ha : addNew acc x = acc ++ [x] := by simp [addNew, hx]
      rw [List.foldl_cons, ha, ih]
      rw [List.filter_cons_of_pos (by simp [hx])]
      rw [dedupFirst]
      rw [List.append_assoc]
      congr 1
      simp only [List.singleton_append]
      congr 1
      rw [List.filter_filter]
      congr 1
      apply List.filter_congr
      intro a _
      by_cases h1 : a = x <;> by_cases h2 : a ∈ acc <;> simp [h1, h2]

/-- Claim C7 (amended): `extract_piece_refs` scans the full text with both
grammars and collapses duplicates on (kind, square) keeping first
occurrences — but in the order "all natural-language matches, then all
compact-notation matches", not merged by textual position. -/
theorem extract_piece_refs_grammar_order (cs : List Char) :
    extract_piece_refs cs = dedupFirst (nlMatches cs ++ sanMatches cs) := by
  unfold extract_piece_refs
  rw [foldl_addNew_eq]
  simp

/-- Claim C7 counterexample: in "Nf3 and the bishop on e5" the SAN claim
(knight, f3) occurs first in the text, yet `extract_piece_refs` returns
the natural-language claim (bishop, e5) first — the output is not in
first-seen merged order. -/
theorem extract_order_counterexample :
    extract_piece_refs ("Nf3 and the bishop on e5".toList)
        = [(PieceKind.bishop, ((4, 4) : Square)), (PieceKind.knight, ((5, 2) : Square))]
    ∧ specFirstSeenOrder ("Nf3 and the bishop on e5".toList)
        = [(PieceKind.knight, ((5, 2) : Square)), (PieceKind.bishop, ((4, 4) : Square))] := by
  constructor
  · rw [extract_piece_refs_grammar_order]
    rw [show nlMatches ("Nf3 and the bishop on e5".toList)
          ++ sanMatches ("Nf3 and the bishop on e5".toList)
        = [(PieceKind.bishop, ((4, 4) : Square)), (PieceKind.knight, ((5, 2) : Square))] from by rfl]
    simp [dedupFirst]
  · unfold specFirstSeenOrder
    rw [show (sortByIdx (nlMatchesIdx ("Nf3 and the bishop on e5".toList)
          ++ sanMatchesIdx ("Nf3 and the bishop on e5".toList))).map (fun x => x.2)
        = [(PieceKind.knight, ((5, 2) : Square)), (PieceKind.bishop, ((4, 4) : Square))] from by rfl]
    simp [dedupFirst]

/-- A demonstration board: a white pawn on e4, everything else empty. -/
def demoBoard : Board :=
  fun sq => if sq = ((4, 3) : Square) then some ⟨PieceKind.pawn, PieceColor.white⟩ else none

/-- Splitting a fragment that contains no separator returns it unchanged. -/
theorem splitOnChar_single (sep : Char) (s : List Char) (h : ¬ sep ∈ s) :
    splitOnChar sep s = [s] := by
  induction s with
  | nil => rfl
  | cons c rest ih =>
    have hc : ¬ c = sep := fun e => h (e ▸ List.mem_cons_self c rest)
    have hr : ¬ sep ∈ rest := fun m => h (List.mem_cons_of_mem _ m)
    simp [splitOnChar, hc, ih hr]

/-- Claim C3 counterexample: the text "e5" contains a square token attached
to no piece word, yet `extract_piece_refs` (the evaluator's
`extractReferences`) captures no claim at all — a bare square is dropped,
not captured as (kind=None, square). -/
theorem extract_bare_square_counterexample :
    extract_piece_refs ("e5".toList) = []
    ∧ firstSquareTok ("e5".toList) = some ((4, 4) : Square) := by
  constructor <;> rfl

/-- Claim C3 (amended): of the two cited extractors only bench_m4's
`parse_refs` captures bare squares: a comma-free refs fragment whose
first whitespace token is not a piece word but which contains a bounded
square token yields the claim (square, kind=None); `validate_refs` then
counts such a claim valid exactly when any piece occupies the square. -/
theorem parse_refs_bare_square (s : List Char) (sq : Square)
    (hc : ¬ ',' ∈ s)
    (hsq : firstSquareWB (lowerStr (pstrip s)) = some sq)
    (hk : ((splitWsTokens (lowerStr (pstrip s))).head?).bind pieceMapM4 = none) :
    parse_refs s = [(sq, none)]
    ∧ ∀ b : Board, validate_refs [(sq, none)] b
        = if (b sq).isSome then (1, 0) else (0, 1) := by
  constructor
  · unfold parse_refs
    have hs_ne : ¬(s = [] ∨ lowerStr (pstrip s) = ("none".toList)) := by
      rintro (h | h)
      · subst h
        rw [show firstSquareWB (lowerStr (pstrip ([] : List Char))) = none from rfl] at hsq
        exact Option.noConfusion hsq
      · rw [h, show firstSquareWB ("none".toList) = none from rfl] at hsq
        exact Option.noConfusion hsq
    rw [if_neg hs_ne, splitOnChar_single ',' s hc]
    simp only [List.foldl_cons, List.foldl_nil, hk, hsq, List.nil_append]
  · intro b
    cases h : b sq with
    | none => simp [validate_refs, h]
    | some p => simp [validate_refs, h]

/-- Concrete instantiation of the bare-square capture theorem. -/
theorem parse_refs_bare_square_witness :
    parse_refs ("the e5".toList) = [(((4, 4) : Square), none)]
    ∧ validate_refs [(((4, 4) : Square), none)] demoBoard = (0, 1) := by
  have h := parse_refs_bare_square ("the e5".toList) ((4, 4) : Square)
    (by decide) (by decide) (by decide)
  refine ⟨h.1, ?_⟩
  rw [h.2 demoBoard]
  rfl

/-- Every fragment kept by the validation loop came from the input and
satisfies the keep predicate. -/
theorem cleanLoop_mem_keep (b : Board) (l : List (List Char)) (f : List Char)
    (hf : f ∈ (cleanLoop b l).1) : f ∈ l ∧ keepFragment b f = true := by
  induction l with
  | nil => simp [cleanLoop] at hf
  | cons ref rest ih =>
    cases hsq : firstSquareTok ref with
    | some sq =>
      by_cases hocc : (b sq).isSome = true
      · rw [show (cleanLoop b (ref :: rest)).1 = ref :: (cleanLoop b rest).1 from by
          simp [cleanLoop, hsq, hocc]] at hf
        rcases List.mem_cons.mp hf with h | h
        · subst h
          exact ⟨List.mem_cons_self _ _, by simp [keepFragment, hsq, hocc]⟩
        · exact ⟨List.mem_cons_of_mem _ (ih h).1, (ih h).2⟩
      · rw [show (cleanLoop b (ref :: rest)).1 = (cleanLoop b rest).1 from by
          simp [cleanLoop, hsq, hocc]] at hf
        exact ⟨List.mem_cons_of_mem _ (ih hf).1, (ih hf).2⟩
    | none =>
      rw [show (cleanLoop b (ref :: rest)).1 = ref :: (cleanLoop b rest).1 from by
        simp [cleanLoop, hsq]] at hf
      rcases List.mem_cons.mp hf with h | h
      · subst h
        exact ⟨List.mem_cons_self _ _, by simp [keepFragment, hsq]⟩
      · exact ⟨List.mem_cons_of_mem _ (ih h).1, (ih h).2⟩

/-- Claim C2 (amended): a fragment is kept exactly when its FIRST
recognizable square token names an occupied square (or it has none); in
particular the first square token of every delivered checkable fragment
is occupied. Other square tokens inside a kept fragment are not checked. -/
theorem post_validate_first_square_occupied (raw : List Char) (b : Board)
    (f : List Char) (sq : Square)
    (hf : f ∈ (post_validate_core raw b).1)
    (hsq : firstSquareTok f = some sq) :
    (b sq).isSome = true := by
  unfold post_validate_core at hf
  by_cases hv : (cleanLoop b ((splitOnChar ',' raw).map pstrip)).1 = []
  · simp only [hv, if_pos rfl] at hf
    rcases List.mem_singleton.mp hf with rfl
    rw [show firstSquareTok ("current position".toList) = none from rfl] at hsq
    exact Option.noConfusion hsq
  · simp only [if_neg hv] at hf
    have h := (cleanLoop_mem_keep b _ f hf).2
    rw [keepFragment, hsq] at h
    exact h

/-- Claim C2 counterexample: with a pawn on e4 and e5 empty, the raw refs
"e4 e5" form one fragment whose first square token e4 is occupied; the
fragment is delivered unchanged, yet it contains the square reference e5
which names an empty square — the "100% of delivered square references
are board-valid" guarantee fails. -/
theorem post_validate_counterexample :
    post_validate_core ("e4 e5".toList) demoBoard = ([("e4 e5".toList)], 0)
    ∧ ((4, 4) : Square) ∈ allSquareToks ("e4 e5".toList)
    ∧ demoBoard ((4, 4) : Square) = none := by
  refine ⟨rfl, by decide, rfl⟩

/-- Concrete instantiation of the delivered-first-square theorem. -/
theorem post_validate_first_square_occupied_witness :
    ("e4".toList ∈ (post_validate_core ("e4, x".toList) demoBoard).1)
    ∧ (demoBoard ((4, 3) : Square)).isSome = true :=
  ⟨by decide,
   post_validate_first_square_occupied ("e4, x".toList) demoBoard ("e4".toList)
     ((4, 3) : Square) (by decide) (by decide)⟩

theorem dropWhile_suffix_decomp (p : Char → Bool) (l : List Char) :
    ∃ u, l = u ++ l.dropWhile p := by
  induction l with
  | nil => exact ⟨[], rfl⟩
  | cons c t ih =>
    by_cases hc : p c = true
    · obtain ⟨u, hu⟩ := ih
      refine ⟨c :: u, ?_⟩
      rw [List.dropWhile_cons, if_pos hc, List.cons_append, ← hu]
    · exact ⟨[], by rw [List.dropWhile_cons, if_neg hc, List.nil_append]⟩

theorem dropWhile_head_not (p : Char → Bool) (l : List Char) (c : Char)
    (h : (l.dropWhile p).head? = some c) : p c = false := by
  induction l with
  | nil => simp [List.dropWhile] at h
  | cons x t ih =>
    by_cases hx : p x = true
    · rw [List.dropWhile_cons, if_pos hx] at h
      exact ih h
    · rw [List.dropWhile_cons, if_neg hx] at h
      simp at h
      rw [← h]
      exact Bool.eq_false_iff.mpr hx

theorem dropWhile_idem (p : Char → Bool) (l : List Char) :
    (l.dropWhile p).dropWhile p = l.dropWhile p := by
  cases h : l.dropWhile p with
  | nil => rfl
  | cons c t =>
    have hc : p c = false := dropWhile_head_not p l c (by rw [h]; rfl)
    rw [List.dropWhile_cons, if_neg (by simp [hc])]

theorem trimEnd_idem (l : List Char) : trimEnd (trimEnd l) = trimEnd l := by
  unfold trimEnd
  rw [List.reverse_reverse, dropWhile_idem]

theorem trimEnd_prefix_decomp (l : List Char) : ∃ u, l = trimEnd l ++ u := by
  obtain ⟨u, hu⟩ := dropWhile_suffix_decomp isSpaceCh l.reverse
  refine ⟨u.reverse, ?_⟩
  conv_lhs => rw [← List.reverse_reverse l, hu]
  rw [List.reverse_append]
  rfl

theorem trimStart_trimEnd_comm (l : List Char) (hl : trimStart l = l) :
    trimStart (trimEnd l) = trimEnd l := by
  cases l with
  | nil => rfl
  | cons c t =>
    have hc : isSpaceCh c = false := by
      cases hcc : isSpaceCh c
      · rfl
      · exfalso
        unfold trimStart at hl
        rw [List.dropWhile_cons, if_pos hcc] at hl
        have h1 := congrArg List.length hl
        have h2 := (List.dropWhile_sublist (p := isSpaceCh) (l := t)).length_le
        simp at h1
        omega
    obtain ⟨u, hpre⟩ := trimEnd_prefix_decomp (c :: t)
    cases hte : trimEnd (c :: t) with
    | nil => rfl
    | cons d t' =>
      rw [hte, List.cons_append] at hpre
      injection hpre with h1 _
      unfold trimStart
      rw [List.dropWhile_cons, if_neg (by simp [← h1, hc])]

theorem pstrip_idem (g : List Char) : pstrip (pstrip g) = pstrip g := by
  unfold pstrip
  rw [trimStart_trimEnd_comm (trimStart g) (dropWhile_idem _ _), trimEnd_idem]

theorem pstrip_cons_space (x : List Char) : pstrip (' ' :: x) = pstrip x := by
  unfold pstrip trimStart
  rw [List.dropWhile_cons, if_pos (by decide)]

theorem trimStart_sublist (l : List Char) : List.Sublist (trimStart l) l :=
  List.dropWhile_sublist isSpaceCh

theorem trimEnd_sublist (l : List Char) : List.Sublist (trimEnd l) l := by
  obtain ⟨u, hu⟩ := trimEnd_prefix_decomp l
  conv_rhs => rw [hu]
  exact List.sublist_append_left _ _

theorem pstrip_sublist (g : List Char) : List.Sublist (pstrip g) g :=
  (trimEnd_sublist (trimStart g)).trans (trimStart_sublist g)

theorem splitOnChar_ne_nil (sep : Char) (s : List Char) : splitOnChar sep s ≠ [] := by
  cases s with
  | nil => simp [splitOnChar]
  | cons c rest =>
    by_cases hc : c = sep
    · simp [splitOnChar, hc]
    · cases hr : splitOnChar sep rest with
      | nil => simp [splitOnChar, hc, hr]
      | cons h t => simp [splitOnChar, hc, hr]

theorem splitOnChar_mem_no_sep (sep : Char) (s : List Char) (g : List Char)
    (hg : g ∈ splitOnChar sep s) : ¬ sep ∈ g := by
  induction s generalizing g with
  | nil =>
    rcases List.mem_singleton.mp hg with rfl
    simp
  | cons c rest ih =>
    by_cases hc : c = sep
    · rw [show splitOnChar sep (c :: rest) = [] :: splitOnChar sep rest from by
        simp [splitOnChar, hc]] at hg
      rcases List.mem_cons.mp hg with rfl | h
      · simp
      · exact ih g h
    · cases hr : splitOnChar sep rest with
      | nil => exact absurd hr (splitOnChar_ne_nil sep rest)
      | cons h t =>
        rw [show splitOnChar sep (c :: rest) = (c :: h) :: t from by
          simp [splitOnChar, hc, hr]] at hg
        rcases List.mem_cons.mp hg with rfl | hmem
        · intro hin
          rcases List.mem_cons.mp hin with heq | hin2
          · exact hc heq.symm
          · exact ih h (hr ▸ List.mem_cons_self h t) hin2
        · exact ih g (hr ▸ List.mem_cons_of_mem h hmem)

theorem splitOnChar_append_sep (sep : Char) (a r : List Char) (ha : ¬ sep ∈ a) :
    splitOnChar sep (a ++ sep :: r) = a :: splitOnChar sep r := by
  induction a with
  | nil => simp [splitOnChar]
  | cons c a' ih =>
    have hc : ¬ c = sep := fun e => ha (e ▸ List.mem_cons_self c a')
    have ha' : ¬ sep ∈ a' := fun m => ha (List.mem_cons_of_mem _ m)
    rw [List.cons_append]
    rw [show splitOnChar sep (c :: (a' ++ sep :: r)) =
        match splitOnChar sep (a' ++ sep :: r) with
        | [] => [[c]]
        | h :: t => (c :: h) :: t from by simp [splitOnChar, hc]]
    rw [ih ha']

theorem splitOnChar_cons_ne (sep c : Char) (x : List Char) (hd : List Char)
    (tl : List (List Char)) (hc : ¬ c = sep) (hx : splitOnChar sep x = hd :: tl) :
    splitOnChar sep (c :: x) = (c :: hd) :: tl := by
  simp [splitOnChar, hc, hx]

theorem splitOnChar_no_sep (sep : Char) (s : List Char) (h : ¬ sep ∈ s) :
    splitOnChar sep s = [s] := splitOnChar_single sep s h

theorem join_split_pstrip (b : List (List Char)) :
    ∀ h : List Char, pstrip h = h → (¬ ',' ∈ h) →
    (∀ f ∈ b, pstrip f = f ∧ ¬ ',' ∈ f) →
    (splitOnChar ',' (joinCS (h :: b))).map pstrip = h :: b := by
  induction b with
  | nil =>
    intro h hs hc _
    rw [show joinCS [h] = h from rfl, splitOnChar_single ',' h hc]
    simp [hs]
  | cons f t ih =>
    intro h hs hc hall
    rw [show joinCS (h :: f :: t) = h ++ ',' :: ' ' :: joinCS (f :: t) from rfl]
    rw [splitOnChar_append_sep ',' h _ hc]
    have hf := hall f (List.mem_cons_self f t)
    have hall' : ∀ g ∈ t, pstrip g = g ∧ ¬ ',' ∈ g :=
      fun g hg => hall g (List.mem_cons_of_mem f hg)
    have hrec := ih f hf.1 hf.2 hall'
    obtain ⟨hd, tl, hsplit⟩ : ∃ hd tl, splitOnChar ',' (joinCS (f :: t)) = hd :: tl := by
      cases hx : splitOnChar ',' (joinCS (f :: t)) with
      | nil => exact absurd hx (splitOnChar_ne_nil _ _)
      | cons hd tl => exact ⟨hd, tl, rfl⟩
    rw [splitOnChar_cons_ne ',' ' ' _ hd tl (by decide) hsplit]
    rw [hsplit] at hrec
    simp only [List.map_cons] at hrec ⊢
    rw [pstrip_cons_space]
    rw [show pstrip hd :: tl.map pstrip = (hd :: tl).map pstrip from rfl] at hrec ⊢
    rw [hrec]
    simp [hs]

theorem cleanLoop_all_keep (b : Board) (l : List (List Char))
    (h : ∀ f ∈ l, keepFragment b f = true) : cleanLoop b l = (l, 0) := by
  induction l with
  | nil => rfl
  | cons ref rest ih =>
    have hrest := ih (fun f hf => h f (List.mem_cons_of_mem ref hf))
    have href := h ref (List.mem_cons_self ref rest)
    cases hsq : firstSquareTok ref with
    | some sq =>
      have hocc : (b sq).isSome = true := by
        rw [keepFragment, hsq] at href
        exact href
      simp [cleanLoop, hsq, hocc, hrest]
    | none => simp [cleanLoop, hsq, hrest]

/-- Every delivered fragment is stripped, comma-free, and satisfies the
keep predicate (the fallback fragment vacuously so). -/
theorem post_validate_props (raw : List Char) (b : Board) :
    ∀ f ∈ (post_validate_core raw b).1,
      pstrip f = f ∧ (¬ ',' ∈ f) ∧ keepFragment b f = true := by
  intro f hf
  unfold post_validate_core at hf
  by_cases hv : (cleanLoop b ((splitOnChar ',' raw).map pstrip)).1 = []
  · simp only [hv, if_pos rfl] at hf
    rcases List.mem_singleton.mp hf with rfl
    refine ⟨by decide, by decide, ?_⟩
    rw [keepFragment, show firstSquareTok ("current position".toList) = none from rfl]
  · simp only [if_neg hv] at hf
    obtain ⟨hmem, hkeep⟩ := cleanLoop_mem_keep b _ f hf
    obtain ⟨g, hg, hfg⟩ := List.mem_map.mp hmem
    refine ⟨?_, ?_, hkeep⟩
    · rw [← hfg]
      exact pstrip_idem g
    · rw [← hfg]
      intro hin
      exact splitOnChar_mem_no_sep ',' raw g hg ((pstrip_sublist g).subset hin)

/-- The filter always delivers at least one fragment. -/
theorem post_validate_ne_nil (raw : List Char) (b : Board) :
    (post_validate_core raw b).1 ≠ [] := by
  unfold post_validate_core
  by_cases hv : (cleanLoop b ((splitOnChar ',' raw).map pstrip)).1 = []
  · simp [hv]
  · simp [hv]

/-- Claim C9: PostValidationFilter is idempotent — re-running the filter on
the re-joined cleaned refs returns the same fragments and rejects zero
fragments, for every raw refs string and decodable position. -/
theorem post_validate_idempotent (raw : List Char) (b : Board) :
    post_validate_core (joinCS (post_validate_core raw b).1) b
      = ((post_validate_core raw b).1, 0) := by
  have hprops := post_validate_props raw b
  have hne := post_validate_ne_nil raw b
  obtain ⟨h, t, hout⟩ : ∃ h t, (post_validate_core raw b).1 = h :: t := by
    cases hx : (post_validate_core raw b).1 with
    | nil => exact absurd hx hne
    | cons h t => exact ⟨h, t, rfl⟩
  rw [hout] at hprops ⊢
  have hh := hprops h (List.mem_cons_self h t)
  have hsplit : (splitOnChar ',' (joinCS (h :: t))).map pstrip = h :: t :=
    join_split_pstrip t h hh.1 hh.2.1
      (fun f hf => ⟨(hprops f (List.mem_cons_of_mem h hf)).1,
                    (hprops f (List.mem_cons_of_mem h hf)).2.1⟩)
  have hred : post_validate_core (joinCS (h :: t)) b
      = (if (cleanLoop b ((splitOnChar ',' (joinCS (h :: t))).map pstrip)).1 = []
         then [("current position".toList)]
         else (cleanLoop b ((splitOnChar ',' (joinCS (h :: t))).map pstrip)).1,
         (cleanLoop b ((splitOnChar ',' (joinCS (h :: t))).map pstrip)).2) := rfl
  rw [hred, hsplit]
  rw [cleanLoop_all_keep b (h :: t) (fun f hf => (hprops f hf).2.2)]
  simp

/-- Claim C5 counterexample: the candidate fails strict JSON parsing only
because of a capitalized boolean literal (the boolean repair alone makes
it parse), yet `evaluator.parse_json_response` applies no repair pass and
returns a parse failure. -/
theorem parse_json_no_repair_counterexample :
    jsonParse ("\x7b\"ok\": True\x7d".toList) = none
    ∧ jsonParse (subBool ("\x7b\"ok\": True\x7d".toList))
        = some (JVal.jobj [("ok".toList, JVal.jbool true)])
    ∧ parse_json_response ("\x7b\"ok\": True\x7d".toList) = none :=
  ⟨rfl, rfl, rfl⟩

/-- Claim C5 (amended): only bench_m4's `parse_alignment_json` applies the
repair pass — whenever the brace-bounded candidate parses after stripping
doubled trailing braces, lowercasing capitalized booleans and quoting
bare enum words, the function returns that parsed object instead of
failing; `evaluator.parse_json_response` performs no repair. -/
theorem parse_alignment_repair_applies (s raw : List Char) (v : JVal)
    (h1 : braceCandidate (pstrip (stripThinkBlocks (pstrip s))) = some raw)
    (h2 : jsonParse (subEnum (subBool (stripTripleBraces raw))) = some v) :
    parse_alignment_json s = some v := by
  simp only [parse_alignment_json, h1, h2]

/-- A concrete repaired candidate: doubled trailing brace, capitalized
boolean, bare enum word. -/
def alignDemoText : List Char :=
  ("\x7b\"alignment\": 7, \"extra\": \x7b\"dev\": True, \"mood\": positive\x7d\x7d\x7d").toList

/-- The object the repair pass recovers from `alignDemoText`. -/
def alignDemoVal : JVal :=
  JVal.jobj [("alignment".toList, JVal.jnum 7),
             ("extra".toList, JVal.jobj [("dev".toList, JVal.jbool true),
                                         ("mood".toList, JVal.jstr ("positive".toList))])]

/-- Concrete instantiation of the repair-pass theorem. -/
theorem parse_alignment_repair_applies_witness :
    parse_alignment_json alignDemoText = some alignDemoVal :=
  parse_alignment_repair_applies alignDemoText alignDemoText alignDemoVal rfl rfl

/-- Claim C6 counterexample: a fenced code block tagged `txt` holds a JSON
object, but `fenced_json` detection returns false — the detection regex
only accepts fences tagged `json` or untagged. -/
theorem fenced_json_counterexample :
    FencedJsonBlock ("```txt\n\x7b\"a\": 1\x7d\n```".toList)
    ∧ format_ok ("```txt\n\x7b\"a\": 1\x7d\n```".toList) FormatId.fenced_json = false := by
  constructor
  · refine ⟨[], "txt".toList, ("\x7b\"a\": 1\x7d").toList, [], by decide, by decide,
      [("a".toList, JVal.jnum 1)], rfl⟩
  · rfl

/-- Claim C6 (amended): whenever the response — after the leading reasoning
block is stripped — matches the fenced detection pattern (a fence opened
by three backticks, optionally tagged `json`, whitespace, a
brace-delimited region, whitespace, a closing fence), `fenced_json`
detection returns true; the check never consults `json_flat`, so it wins
whenever both could match. -/
theorem fenced_json_detected (s : List Char)
    (h : fencedSearch (dropThink (pstrip s)) = true) :
    format_ok s FormatId.fenced_json = true := by
  have hs1 : ¬ pstrip s = [] := by
    intro he
    rw [he, show dropThink ([] : List Char) = [] from rfl] at h
    exact absurd h (by decide)
  have hs2 : ¬ dropThink (pstrip s) = [] := by
    intro he
    rw [he] at h
    exact absurd h (by decide)
  simp only [format_ok, if_neg hs1, if_neg hs2]
  exact h

/-- Concrete instantiation of the fenced detection theorem, on a response
whose fenced body would also satisfy `json_flat` with the fences
stripped. -/
theorem fenced_json_detected_witness :
    fencedSearch (dropThink (pstrip ("Intro ```json\n\x7b\"a\": 1\x7d\n``` done".toList))) = true
    ∧ format_ok ("Intro ```json\n\x7b\"a\": 1\x7d\n``` done".toList) FormatId.fenced_json = true :=
  ⟨rfl, fenced_json_detected _ rfl⟩

/-- A nonempty label cannot match in an empty text. -/
theorem labelHere_nil (lbl : List Char) (hlbl : lbl ≠ []) : labelHere lbl [] = false := by
  cases lbl with
  | nil => exact absurd rfl hlbl
  | cons w ws => rfl

/-- Correctness of the MULTILINE anchored search: it succeeds exactly when
the label rule matches at the scan start (when that position is a line
start) or just after some newline. -/
theorem searchLabelGo_iff (lbl : List Char) (hlbl : lbl ≠ []) :
    ∀ (cs : List Char) (flag : Bool),
    searchLabelGo lbl flag cs = true ↔
      ((flag = true ∧ labelHere lbl cs = true)
        ∨ ∃ pre suf, cs = pre ++ suf ∧ (∃ p, pre = p ++ ['\n'])
            ∧ labelHere lbl suf = true) := by
  intro cs
  induction cs with
  | nil =>
    intro flag
    rw [searchLabelGo, labelHere_nil lbl hlbl]
    constructor
    · intro h
      exact absurd h (by simp)
    · rintro (⟨_, hl⟩ | ⟨pre, suf, heq, ⟨p, hp⟩, _⟩)
      · exact Bool.noConfusion hl
      · exfalso
        have : pre = [] := List.append_eq_nil.mp heq.symm |>.1
        rw [this] at hp
        exact List.noConfusion (List.append_eq_nil.mp hp.symm).2
  | cons c rest ih =>
    intro flag
    rw [searchLabelGo]
    by_cases hcond : (flag && labelHere lbl (c :: rest)) = true
    · rw [if_pos hcond]
      simp only [true_iff]
      have hc' := hcond
      rw [Bool.and_eq_true] at hc'
      exact Or.inl hc'
    · rw [if_neg hcond]
      rw [ih (decide (c = '\n'))]
      constructor
      · rintro (⟨hf, hl⟩ | ⟨pre', suf', heq, ⟨p', hp'⟩, hl⟩)
        · refine Or.inr ⟨['\n'], rest, ?_, ⟨[], rfl⟩, hl⟩
          have : c = '\n' := of_decide_eq_true hf
          rw [this]
          rfl
        · refine Or.inr ⟨c :: pre', suf', ?_, ⟨c :: p', by rw [hp']; rfl⟩, hl⟩
          rw [heq]
          rfl
      · rintro (⟨hf, hl⟩ | ⟨pre, suf, heq, ⟨p, hp⟩, hl⟩)
        · exact absurd (by rw [Bool.and_eq_true]; exact ⟨hf, hl⟩) hcond
        · subst hp
          cases p with
          | nil =>
            simp only [List.nil_append, List.cons_append] at heq
            injection heq with h1 h2
            refine Or.inl ⟨by rw [h1]; rfl, ?_⟩
            rw [← h2] at hl
            simpa using hl
          | cons q p' =>
            rw [List.cons_append, List.cons_append] at heq
            injection heq with h1 h2
            exact Or.inr ⟨p' ++ ['\n'], suf, h2, ⟨p', rfl⟩, hl⟩

/-- The label search succeeds exactly when some line starts with the label
rule. -/
theorem searchLabel_iff (lbl : List Char) (hlbl : lbl ≠ []) (cs : List Char) :
    searchLabel lbl cs = true ↔ LineStartLabel lbl cs := by
  rw [searchLabel, searchLabelGo_iff lbl hlbl cs true]
  unfold LineStartLabel
  constructor
  · rintro (⟨_, hl⟩ | ⟨pre, suf, heq, hp, hl⟩)
    · exact ⟨[], cs, rfl, Or.inl rfl, hl⟩
    · exact ⟨pre, suf, heq, Or.inr hp, hl⟩
  · rintro ⟨pre, suf, heq, hp | hp, hl⟩
    · subst hp
      simp only [List.nil_append] at heq
      exact Or.inl ⟨rfl, heq ▸ hl⟩
    · exact Or.inr ⟨pre, suf, heq, hp, hl⟩

/-- Claim C8 (amended): `refs_coaching` detection returns ok=true iff, in
the text left after stripping the leading reasoning block, some line
start carries `[ \t]*REFS\s*[:=]` and some line start carries
`[ \t]*COACHING\s*[:=]` (case-insensitive; the whitespace before the
separator may even cross newlines) — a looser rule than the claim's
`^REFS:`/`^COACHING:` regexes. -/
theorem refs_coaching_iff_labels (s : List Char) :
    format_ok s FormatId.refs_coaching = true ↔
      (pstrip s ≠ [] ∧ dropThink (pstrip s) ≠ []
        ∧ LineStartLabel ("refs".toList) (dropThink (pstrip s))
        ∧ LineStartLabel ("coaching".toList) (dropThink (pstrip s))) := by
  by_cases h1 : pstrip s = []
  · simp only [format_ok, if_pos h1]
    constructor
    · intro h
      exact Bool.noConfusion h
    · rintro ⟨hne, _⟩
      exact absurd h1 hne
  · by_cases h2 : dropThink (pstrip s) = []
    · simp only [format_ok, if_neg h1, if_pos h2]
      constructor
      · intro h
        exact Bool.noConfusion h
      · rintro ⟨_, hne, _⟩
        exact absurd h2 hne
    · simp only [format_ok, if_neg h1, if_neg h2]
      rw [parse_refs_coaching_ok, Bool.and_eq_true,
          searchLabel_iff _ (by decide) _, searchLabel_iff _ (by decide) _]
      constructor
      · rintro ⟨ha, hb⟩
        exact ⟨h1, h2, ha, hb⟩
      · rintro ⟨_, _, ha, hb⟩
        exact ⟨ha, hb⟩

/-- Claim C8 counterexample: "REFS= e4\nCOACHING= good" is detected ok=true
although no line matches the claim's regex `^REFS:\s*(.*)` (the label is
separated by `=`); the strict reading does hold on an actual `REFS:`
line, so the code's rule is strictly looser than the claimed iff. -/
theorem refs_coaching_counterexample :
    format_ok ("REFS= e4\nCOACHING= good".toList) FormatId.refs_coaching = true
    ∧ strictSearch ("refs:".toList) ("REFS= e4\nCOACHING= good".toList) = false
    ∧ strictSearch ("refs:".toList) ("REFS: e4".toList) = true :=
  ⟨rfl, rfl, rfl⟩

/-- Concrete instantiation of the refs_coaching characterization. -/
theorem refs_coaching_iff_labels_witness :
    format_ok ("REFS: e4\nCOACHING: hi".toList) FormatId.refs_coaching = true :=
  (refs_coaching_iff_labels _).mpr ⟨by decide, by decide,
    ⟨[], dropThink (pstrip ("REFS: e4\nCOACHING: hi".toList)), by decide,
      Or.inl rfl, by decide⟩,
    ⟨"REFS: e4\n".toList, "COACHING: hi".toList, by decide,
      Or.inr ⟨"REFS: e4".toList, by decide⟩, by decide⟩⟩
